import Mathlib

/-!
# Verification of the anjin incremental-sync and caching engine

A shallow embedding, in Lean 4, of the parts of the `anjin` repository that
the specification's testable properties talk about:

* `src/anjin/vector.py` — content hashing, chunking, change-set resolution
  against a persisted index, and reconciliation of a chroma vector store
  (`ChromaIndex`);
* `src/anjin/cache.py` — the per-package changelog artifact cache
  (`ChangelogCache`);
* `src/anjin/dependency.py` — the per-package pipeline task
  (`DependencyRunner`);
* `src/anjin/release_notes.py` and `src/anjin/openai_client.py` — the
  summarization entry points and the global changelog cache.

Python text is modelled as `List Char`; Python `dict`s are modelled as
insertion-ordered association lists; a raised-and-propagating exception is
modelled with `Except`; collaborators that live outside the repository
(sha256, the chroma client, the network) enter as explicit parameters with
only the behavior the source relies on.
-/

namespace Anjin

/-! ## Chunker (`ChromaIndex._recursive_chunk_with_overlap`, vector.py)

The Python loop:

```
if len(text) <= max_chunk_size: return [text]
chunks = []; start = 0
while start < len(text):
    end = start + max_chunk_size
    if end > len(text): end = len(text)
    chunks.append(text[start:end])
    start += max_chunk_size - overlap
return chunks
```

The slice `text[start:min(start+max, len)]` is `(text.drop start).take max`.
The while-loop is given explicit fuel; `text.length` iterations always
suffice when `overlap < max_chunk_size` (proved below), which is the regime
in which the Python loop terminates at all.
-/

/-- One-loop-iteration-at-a-time model of the `while start < len(text)` loop
of `_recursive_chunk_with_overlap`. -/
def chunkAux (text : List Char) (maxChunkSize overlap : Nat) : Nat → Nat → List (List Char)
  | 0, _ => []
  | fuel + 1, start =>
    if start < text.length then
      ((text.drop start).take maxChunkSize) ::
        chunkAux text maxChunkSize overlap fuel (start + (maxChunkSize - overlap))
    else []

/-- `_recursive_chunk_with_overlap` with an explicit iteration budget for the
window loop. -/
def recursiveChunkWithOverlapFuel (text : List Char) (maxChunkSize overlap fuel : Nat) :
    List (List Char) :=
  if text.length ≤ maxChunkSize then [text]
  else chunkAux text maxChunkSize overlap fuel 0

/-- `ChromaIndex._recursive_chunk_with_overlap(text, max_chunk_size, overlap)`:
`text.length` iterations of fuel suffice whenever `overlap < max_chunk_size`. -/
def recursiveChunkWithOverlap (text : List Char) (maxChunkSize overlap : Nat) :
    List (List Char) :=
  recursiveChunkWithOverlapFuel text maxChunkSize overlap text.length

/-- `ChromaIndex._chunk_file_content(content)` with its call-site defaults
`max_chunk_size=1000`, `overlap=100`. -/
def chunkFileContent (content : List Char) : List (List Char) :=
  recursiveChunkWithOverlap content 1000 100

theorem ceil_div_succ (a s : Nat) (hs : 0 < s) (ha : 1 ≤ a) :
    (a + s - 1) / s = (a - 1) / s + 1 := by
  have h : a + s - 1 = (a - 1) + s := by omega
  rw [h, Nat.add_div_right _ hs]

theorem sub_add_pred_div (a s : Nat) (hs : 0 < s) : (a - s + s - 1) / s = (a - 1) / s := by
  rcases Nat.le_total s a with hle | hle
  · congr 1
    omega
  · have h0 : a - s = 0 := by omega
    rw [h0]
    rw [Nat.div_eq_of_lt (by omega), Nat.div_eq_of_lt (by omega)]

/-- The window loop of `_recursive_chunk_with_overlap` computes exactly the
windows `text[start + k*step : start + k*step + maxChunkSize]` for
`k = 0, 1, ...` while the window start stays below `text.length`, provided
`overlap < maxChunkSize` and enough fuel is supplied. -/
theorem chunkAux_eq_windows (text : List Char) (m o : Nat) (hmo : o < m) :
    ∀ fuel start, text.length - start ≤ fuel →
      chunkAux text m o fuel start =
        (List.range ((text.length - start + (m - o) - 1) / (m - o))).map
          (fun k => (text.drop (start + k * (m - o))).take m) := by
  intro fuel
  induction fuel with
  | zero =>
    intro start hf
    have h0 : text.length - start = 0 := by omega
    have hn : (text.length - start + (m - o) - 1) / (m - o) = 0 := by
      rw [h0]
      exact Nat.div_eq_of_lt (by omega)
    rw [hn]
    simp [chunkAux]
  | succ fuel ih =>
    intro start hf
    by_cases hlt : start < text.length
    · have hs : 0 < m - o := by omega
      have ha : 1 ≤ text.length - start := by omega
      have hrec := ih (start + (m - o)) (by omega)
      have hn : (text.length - start + (m - o) - 1) / (m - o)
          = ((text.length - (start + (m - o)) + (m - o) - 1) / (m - o)) + 1 := by
        have e1 : text.length - (start + (m - o)) = (text.length - start) - (m - o) := by
          omega
        rw [e1, sub_add_pred_div (text.length - start) (m - o) hs,
          ceil_div_succ (text.length - start) (m - o) hs ha]
      simp only [chunkAux, if_pos hlt]
      rw [hrec, hn, List.range_succ_eq_map]
      simp only [List.map_cons, List.map_map, Nat.zero_mul, Nat.add_zero]
      refine congrArg (List.cons _) ?_
      refine List.map_congr_left ?_
      intro k _
      have e2 : start + (m - o) + k * (m - o) = start + Nat.succ k * (m - o) := by
        rw [Nat.succ_mul]
        omega
      simp only [Function.comp]
      rw [e2]
    · have h0 : text.length - start = 0 := by omega
      have hn : (text.length - start + (m - o) - 1) / (m - o) = 0 := by
        rw [h0]
        exact Nat.div_eq_of_lt (by omega)
      simp only [chunkAux, if_neg hlt]
      rw [hn]
      simp

/-- C3: `chunk(text, maxSize, overlap)` returns `[text]` whenever
`len(text) <= maxSize`; otherwise it returns the windows
`text[start : start+maxSize]` for `start = 0, s, 2s, ...` with
`s = maxSize - overlap`, continuing while `start < len(text)` (the window
index range is exactly `{k | k*s < len(text)}`), with the final chunk
truncated at the end of the text; in particular
`chunk("abcdefghij", 4, 1) = ["abcd", "defg", "ghij", "j"]`. -/
theorem chunker_postcondition (text : List Char) (m o : Nat) (hmo : o < m) :
    (text.length ≤ m → recursiveChunkWithOverlap text m o = [text]) ∧
    (m < text.length →
      recursiveChunkWithOverlap text m o =
        (List.range ((text.length + (m - o) - 1) / (m - o))).map
          (fun k => (text.drop (k * (m - o))).take m)) ∧
    (∀ k : Nat, k < (text.length + (m - o) - 1) / (m - o) ↔ k * (m - o) < text.length) ∧
    recursiveChunkWithOverlap "abcdefghij".toList 4 1 =
      ["abcd".toList, "defg".toList, "ghij".toList, "j".toList] := by
  refine ⟨?_, ?_, ?_, ?_⟩
  · intro h
    simp [recursiveChunkWithOverlap, recursiveChunkWithOverlapFuel, if_pos h]
  · intro h
    have hw := chunkAux_eq_windows text m o hmo text.length 0 (by omega)
    simp only [Nat.sub_zero, Nat.zero_add] at hw
    simp [recursiveChunkWithOverlap, recursiveChunkWithOverlapFuel,
      if_neg (Nat.not_le.mpr h), hw]
  · intro k
    have hs : 0 < m - o := by omega
    rw [Nat.lt_iff_add_one_le, Nat.le_div_iff_mul_le hs, Nat.succ_mul]
    omega
  · decide

/-- C9: for every text and `0 ≤ overlap < maxSize`, the window loop
terminates within `len(text)` iterations — any fuel of at least `len(text)`
yields the same (finite) chunk list, whose length is `1` when
`len(text) ≤ maxSize` and `⌈len(text)/(maxSize-overlap)⌉` otherwise. -/
theorem chunker_terminates (text : List Char) (m o : Nat) (hmo : o < m) :
    (∀ fuel, text.length ≤ fuel →
      recursiveChunkWithOverlapFuel text m o fuel = recursiveChunkWithOverlap text m o) ∧
    (recursiveChunkWithOverlap text m o).length =
      (if text.length ≤ m then 1 else (text.length + (m - o) - 1) / (m - o)) := by
  constructor
  · intro fuel hfuel
    by_cases h : text.length ≤ m
    · simp [recursiveChunkWithOverlap, recursiveChunkWithOverlapFuel, if_pos h]
    · simp only [recursiveChunkWithOverlap, recursiveChunkWithOverlapFuel, if_neg h]
      rw [chunkAux_eq_windows text m o hmo fuel 0 (by omega),
        chunkAux_eq_windows text m o hmo text.length 0 (by omega)]
  · by_cases h : text.length ≤ m
    · simp [recursiveChunkWithOverlap, recursiveChunkWithOverlapFuel, if_pos h]
    · simp only [recursiveChunkWithOverlap, recursiveChunkWithOverlapFuel, if_neg h,
        if_neg h]
      rw [chunkAux_eq_windows text m o hmo text.length 0 (by omega)]
      simp

/-! ## Association-list model of Python dicts

`self._index_cache` (vector.py) and the parsed JSON cache files (cache.py,
release_notes.py) are Python `dict`s with string keys.  They are modelled as
insertion-ordered association lists; `assocFind?` is `d.get(k)`,
`assocHasKey` is `k in d`, `assocInsert` is `d[k] = v` (update in place when
the key exists, append otherwise, as CPython preserves insertion order). -/

def assocFind? {α : Type} : List (String × α) → String → Option α
  | [], _ => none
  | e :: rest, k => if e.1 = k then some e.2 else assocFind? rest k

def assocHasKey {α : Type} (l : List (String × α)) (k : String) : Bool :=
  (assocFind? l k).isSome

def assocInsert {α : Type} (l : List (String × α)) (k : String) (v : α) :
    List (String × α) :=
  if assocHasKey l k then l.map (fun e => if e.1 = k then (k, v) else e)
  else l ++ [(k, v)]

theorem assocFind?_eq_none_iff {α : Type} (l : List (String × α)) (k : String) :
    assocFind? l k = none ↔ k ∉ l.map Prod.fst := by
  induction l with
  | nil => simp [assocFind?]
  | cons e rest ih =>
    by_cases h : e.1 = k
    · simp [assocFind?, h]
    · simp [assocFind?, h, ih, Ne.symm h]

theorem assocFind?_isSome_iff {α : Type} (l : List (String × α)) (k : String) :
    (assocFind? l k).isSome = true ↔ k ∈ l.map Prod.fst := by
  rw [Option.isSome_iff_ne_none, not_iff_comm, assocFind?_eq_none_iff]

theorem assocFind?_some_mem {α : Type} {l : List (String × α)} {k : String} {v : α}
    (h : assocFind? l k = some v) : (k, v) ∈ l := by
  induction l with
  | nil => simp [assocFind?] at h
  | cons e rest ih =>
    by_cases he : e.1 = k
    · simp only [assocFind?, if_pos he] at h
      have hv : e.2 = v := Option.some.inj h
      exact List.mem_cons.mpr (Or.inl (by rw [← he, ← hv]))
    · simp only [assocFind?, if_neg he] at h
      exact List.mem_cons_of_mem _ (ih h)

theorem assocFind?_of_nodup_mem {α : Type} {l : List (String × α)} {k : String} {v : α}
    (hnd : (l.map Prod.fst).Nodup) (hmem : (k, v) ∈ l) : assocFind? l k = some v := by
  induction l with
  | nil => simp at hmem
  | cons e rest ih =>
    simp only [List.map_cons, List.nodup_cons] at hnd
    rcases List.mem_cons.mp hmem with heq | hmem2
    · subst heq
      simp [assocFind?]
    · have hk : e.1 ≠ k := by
        intro h
        exact hnd.1 (h ▸ (List.mem_map.mpr ⟨(k, v), hmem2, rfl⟩))
      simp only [assocFind?, if_neg hk]
      exact ih hnd.2 hmem2

theorem assocFind?_map_subst_self {α : Type} (l : List (String × α)) (k : String) (v : α)
    (h : assocHasKey l k = true) :
    assocFind? (l.map (fun e => if e.1 = k then (k, v) else e)) k = some v := by
  induction l with
  | nil => simp [assocHasKey, assocFind?] at h
  | cons e rest ih =>
    by_cases he : e.1 = k
    · simp [assocFind?, he]
    · have h2 : assocHasKey rest k = true := by
        simpa [assocHasKey, assocFind?, he] using h
      simp [assocFind?, he, ih h2]

theorem assocFind?_append_single_self {α : Type} (l : List (String × α)) (k : String)
    (v : α) (h : assocFind? l k = none) : assocFind? (l ++ [(k, v)]) k = some v := by
  induction l with
  | nil => simp [assocFind?]
  | cons e rest ih =>
    by_cases he : e.1 = k
    · simp [assocFind?, he] at h
    · simp only [assocFind?, if_neg he] at h
      simpa [assocFind?, he] using ih h

theorem assocFind?_map_subst_ne {α : Type} (l : List (String × α)) (k q : String) (v : α)
    (hq : q ≠ k) :
    assocFind? (l.map (fun e => if e.1 = k then (k, v) else e)) q = assocFind? l q := by
  induction l with
  | nil => rfl
  | cons e rest ih =>
    by_cases he : e.1 = k
    · have hne : e.1 ≠ q := by
        rw [he]
        exact fun hc => hq hc.symm
      simp [assocFind?, he, hne, Ne.symm hq, ih]
    · by_cases heq : e.1 = q
      · simp [assocFind?, he, heq, hq]
      · simp [assocFind?, he, heq, ih]

theorem assocFind?_append_single_ne {α : Type} (l : List (String × α)) (k q : String)
    (v : α) (hq : q ≠ k) : assocFind? (l ++ [(k, v)]) q = assocFind? l q := by
  induction l with
  | nil => simp [assocFind?, Ne.symm hq]
  | cons e rest ih =>
    by_cases heq : e.1 = q
    · simp [assocFind?, heq]
    · simp [assocFind?, heq, ih]

theorem assocFind?_insert_self {α : Type} (l : List (String × α)) (k : String) (v : α) :
    assocFind? (assocInsert l k v) k = some v := by
  unfold assocInsert
  by_cases h : assocHasKey l k
  · rw [if_pos h]
    exact assocFind?_map_subst_self l k v h
  · rw [if_neg h]
    have hn : assocFind? l k = none := by
      by_contra hc
      exact h (by simp [assocHasKey, Option.isSome_iff_ne_none, hc])
    exact assocFind?_append_single_self l k v hn

theorem assocFind?_insert_ne {α : Type} (l : List (String × α)) (k q : String) (v : α)
    (hq : q ≠ k) : assocFind? (assocInsert l k v) q = assocFind? l q := by
  unfold assocInsert
  by_cases h : assocHasKey l k
  · rw [if_pos h]
    exact assocFind?_map_subst_ne l k q v hq
  · rw [if_neg h]
    exact assocFind?_append_single_ne l k q v hq

theorem mem_keys_insert {α : Type} (l : List (String × α)) (k q : String) (v : α) :
    q ∈ (assocInsert l k v).map Prod.fst ↔ q = k ∨ q ∈ l.map Prod.fst := by
  by_cases hq : q = k
  · subst hq
    simp only [true_or, iff_true]
    rw [← assocFind?_isSome_iff, assocFind?_insert_self]
    rfl
  · rw [← assocFind?_isSome_iff, assocFind?_insert_ne l k q v hq, assocFind?_isSome_iff]
    simp [hq]

theorem assocFind?_filter_key {α : Type} (l : List (String × α)) (P : String → Bool)
    (k : String) :
    assocFind? (l.filter (fun e => P e.1)) k
      = if P k then assocFind? l k else none := by
  induction l with
  | nil => simp [assocFind?]
  | cons e rest ih =>
    by_cases he : e.1 = k
    · subst he
      by_cases hP : P e.1
      · simp [List.filter_cons, hP, assocFind?]
      · simp [List.filter_cons, hP, assocFind?, ih]
    · by_cases hP : P e.1
      · simp [List.filter_cons, hP, assocFind?, he, ih]
      · simp [List.filter_cons, hP, assocFind?, he, ih]

/-- Folding a per-key removal over a list of keys is the same as filtering
out every element whose key occurs in the list. -/
theorem foldl_remove_eq_filter {α : Type} (key : α → String) :
    ∀ (dels : List String) (init : List α),
      dels.foldl (fun acc p => acc.filter (fun x => decide (key x ≠ p))) init
        = init.filter (fun x => decide (key x ∉ dels)) := by
  intro dels
  induction dels with
  | nil =>
    intro init
    simp
  | cons d ds ih =>
    intro init
    simp only [List.foldl_cons, ih, List.filter_filter]
    refine List.filter_congr ?_
    intro x _
    simp only [List.mem_cons, not_or, decide_not]
    cases hxd : decide (key x = d) <;> cases hxds : decide (key x ∈ ds) <;>
      simp_all

theorem foldl_prod_split {α β γ : Type} (f : α → γ → α) (g : β → γ → β) :
    ∀ (l : List γ) (a : α) (b : β),
      l.foldl (fun sc p => (f sc.1 p, g sc.2 p)) (a, b) = (l.foldl f a, l.foldl g b) := by
  intro l
  induction l with
  | nil => intro a b; rfl
  | cons x xs ih => intro a b; simp [List.foldl_cons, ih]

/-! ## Scan and reconcile (`ChromaIndex`, vector.py)

The model is parametrized by `hashFn : List Char → String`, standing for
`hashlib.sha256(content.encode("utf-8")).hexdigest()` — an external,
deterministic function whose outputs (64 hex characters) are never the
empty string.  A corpus snapshot is the list of `(file_path, file text)`
pairs produced by `_walk_file_tree` (each existing file appears once, so
the path list has no duplicates).  A chroma collection is a list of
entries `(id, document, metadata.file_path)`; `collection.add` keyed by
content-hash ids is an upsert (an id already present, which carries the
identical document, is left in place), and
`collection.delete(where={"file_path": p})` removes every entry whose
metadata path is `p`.  `storeFails p = true` models
`self._collection.add` raising (store unavailable / disk error) while
adding the chunks of file `p`. -/

/-- `re.sub(r"\n", "", content)` in `ChromaIndex._handle_file`. -/
def normalizeContent (s : List Char) : List Char :=
  s.filter (fun c => decide (c ≠ '\n'))

/-- The `FileToIndex` named tuple of vector.py. -/
structure FileToIndex where
  file_path : String
  file_hash : String
  content : List Char
deriving DecidableEq

/-- One `{"file_hash": ..., "indexed_at": ...}` value of the persisted
`index.json`; the timestamp is an opaque `Nat`. -/
structure IndexEntry where
  file_hash : String
  indexed_at : Nat
deriving DecidableEq

/-- `self._index_cache`: the parsed `index.json` mapping file paths to
index entries. -/
abbrev IndexCache : Type := List (String × IndexEntry)

/-- One embedding row of the chroma collection: its id, document and
`file_path` metadata. -/
structure StoreEntry where
  id : String
  document : List Char
  file_path : String
deriving DecidableEq

/-- The chroma collection contents. -/
abbrev Store : Type := List StoreEntry

/-- `ChromaIndex._get_stored_file_hash`:
`self._index_cache.get(file_path, {}).get("file_hash")`. -/
def getStoredFileHash (cache : IndexCache) (p : String) : Option String :=
  (assocFind? cache p).map (fun e => e.file_hash)

/-- `ChromaIndex._handle_file` on one scanned file: queue it iff
`not stored_file_hash or (stored_file_hash and current != stored)`.
A stored hash that is the empty string is falsy in Python, hence treated
like a missing hash. -/
def handleFile (hashFn : List Char → String) (cache : IndexCache) (p : String)
    (content : List Char) : Option FileToIndex :=
  let c := normalizeContent content
  let h := hashFn c
  match getStoredFileHash cache p with
  | none => some ⟨p, h, c⟩
  | some sh => if sh = "" ∨ h ≠ sh then some ⟨p, h, c⟩ else none

/-- `ChromaIndex._scan_codebase`: the `_files_to_index` list after walking
the corpus (in walk order). -/
def scanCodebase (hashFn : List Char → String) (cache : IndexCache)
    (corpus : List (String × List Char)) : List FileToIndex :=
  corpus.filterMap (fun pc => handleFile hashFn cache pc.1 pc.2)

/-- `self._all_file_paths` after the scan. -/
def allFilePaths (corpus : List (String × List Char)) : List String :=
  corpus.map Prod.fst

/-- `ChromaIndex._get_files_to_delete`:
`self._index_cache.keys() - self._all_file_paths`. -/
def filesToDelete (cache : IndexCache) (paths : List String) : List String :=
  (cache.map Prod.fst).filter (fun k => decide (k ∉ paths))

/-- `collection.add` of a single chunk row: an id already present in the
collection (same content hash, hence same document) is an upsert no-op. -/
def addChunkRow (store : Store) (e : StoreEntry) : Store :=
  if (List.filter (fun x => decide (x.id = e.id)) store).isEmpty then store ++ [e]
  else store

/-- The body of the `for file_to_index in self._files_to_index` loop in
`_add_files_to_vector_db` for one file: chunk it, derive the content-hash
chunk ids, add the rows. -/
def addFileChunks (hashFn : List Char → String) (store : Store) (f : FileToIndex) :
    Store :=
  ((chunkFileContent f.content).map
    (fun c => StoreEntry.mk (hashFn c) c f.file_path)).foldl addChunkRow store

/-- `ChromaIndex._add_files_to_vector_db`: walk `_files_to_index`, adding
each file's chunks; `collection.add` raising for some file (modelled by
`storeFails`) aborts the loop — the second component is `false` when the
exception escapes. -/
def addFilesToVectorDb (hashFn : List Char → String) (storeFails : String → Bool)
    (store : Store) : List FileToIndex → Store × Bool
  | [] => (store, true)
  | f :: rest =>
    if storeFails f.file_path then (store, false)
    else addFilesToVectorDb hashFn storeFails (addFileChunks hashFn store f) rest

/-- `ChromaIndex._update_index_cache`: write
`{"file_hash": ..., "indexed_at": now}` for every queued file. -/
def updateIndexCache (cache : IndexCache) (toIndex : List FileToIndex) (now : Nat) :
    IndexCache :=
  toIndex.foldl (fun c f => assocInsert c f.file_path ⟨f.file_hash, now⟩) cache

/-- `self._collection.delete(where={"file_path": file_path})`. -/
def deleteWhereFilePath (store : Store) (p : String) : Store :=
  List.filter (fun e => decide (e.file_path ≠ p)) store

/-- `ChromaIndex._remove_file_from_index_cache`: `del self._index_cache[p]`. -/
def removeFileFromIndexCache (cache : IndexCache) (p : String) : IndexCache :=
  List.filter (fun x => decide (x.1 ≠ p)) cache

/-- `ChromaIndex._handle_files_to_delete`: compute `_files_to_delete`, then
delete each such path from the collection and from the index cache. -/
def handleFilesToDelete (paths : List String) (store : Store) (cache : IndexCache) :
    Store × IndexCache :=
  (filesToDelete cache paths).foldl
    (fun sc p => (deleteWhereFilePath sc.1 p, removeFileFromIndexCache sc.2 p))
    (store, cache)

/-- Outcome of one `index_codebase` run: final collection contents, the
`index.json` contents on disk after the run, and whether the run aborted
with a propagating exception (in which case `_write_index_cache` never ran
and the on-disk index is the one the run started from). -/
structure IndexRunResult where
  store : Store
  persistedCache : IndexCache
  aborted : Bool
deriving DecidableEq

/-- `ChromaIndex.index_codebase`: scan, add queued files (updating the
in-memory index cache on success), delete vanished files, write the index
cache.  An exception from `collection.add` propagates out of the `Progress`
context manager: the remaining steps do not run. -/
def indexCodebase (hashFn : List Char → String) (storeFails : String → Bool)
    (now : Nat) (corpus : List (String × List Char)) (persisted : IndexCache)
    (store : Store) : IndexRunResult :=
  let toIndex := scanCodebase hashFn persisted corpus
  let added := addFilesToVectorDb hashFn storeFails store toIndex
  if added.2 then
    let cache1 := updateIndexCache persisted toIndex now
    let sc := handleFilesToDelete (allFilePaths corpus) added.1 cache1
    ⟨sc.1, sc.2, false⟩
  else
    ⟨added.1, persisted, true⟩

/-! ### Facts about scan, update and delete -/

theorem handleFile_some {hashFn : List Char → String} {cache : IndexCache} {p : String}
    {c : List Char} {f : FileToIndex} (h : handleFile hashFn cache p c = some f) :
    f = ⟨p, hashFn (normalizeContent c), normalizeContent c⟩ := by
  simp only [handleFile] at h
  cases hg : getStoredFileHash cache p with
  | none =>
    rw [hg] at h
    exact (Option.some.inj h).symm
  | some sh =>
    rw [hg] at h
    by_cases hc : sh = "" ∨ hashFn (normalizeContent c) ≠ sh
    · simp only [if_pos hc] at h
      exact (Option.some.inj h).symm
    · simp only [if_neg hc] at h
      cases h

theorem scan_paths_sublist (hashFn : List Char → String) (cache : IndexCache) :
    ∀ corpus : List (String × List Char),
      List.Sublist ((scanCodebase hashFn cache corpus).map (fun f => f.file_path))
        (allFilePaths corpus) := by
  intro corpus
  induction corpus with
  | nil => simp [scanCodebase, allFilePaths]
  | cons pc rest ih =>
    simp only [scanCodebase, allFilePaths, List.filterMap_cons, List.map_cons] at *
    cases hh : handleFile hashFn cache pc.1 pc.2 with
    | none => exact ih.cons pc.1
    | some f =>
      rw [handleFile_some hh]
      simpa using ih.cons₂ pc.1

theorem scan_paths_nodup (hashFn : List Char → String) (cache : IndexCache)
    (corpus : List (String × List Char)) (hnd : (allFilePaths corpus).Nodup) :
    ((scanCodebase hashFn cache corpus).map (fun f => f.file_path)).Nodup :=
  hnd.sublist (scan_paths_sublist hashFn cache corpus)

theorem mem_scan_paths_iff (hashFn : List Char → String) (cache : IndexCache)
    (corpus : List (String × List Char)) (hnd : (allFilePaths corpus).Nodup)
    (p : String) :
    p ∈ (scanCodebase hashFn cache corpus).map (fun f => f.file_path) ↔
      ∃ c, assocFind? corpus p = some c ∧ handleFile hashFn cache p c ≠ none := by
  constructor
  · intro h
    obtain ⟨f, hf, hp⟩ := List.mem_map.mp h
    obtain ⟨pc, hpc, hfc⟩ := List.mem_filterMap.mp hf
    have hfe := handleFile_some hfc
    have hpq : pc.1 = p := by rw [hfe] at hp; exact hp
    refine ⟨pc.2, ?_, ?_⟩
    · rw [← hpq]
      exact assocFind?_of_nodup_mem hnd (by simpa using hpc)
    · rw [← hpq]
      simp [hfc]
  · rintro ⟨c, hfind, hne⟩
    have hmem : (p, c) ∈ corpus := assocFind?_some_mem hfind
    cases hh : handleFile hashFn cache p c with
    | none => exact absurd hh hne
    | some f =>
      refine List.mem_map.mpr ⟨f, List.mem_filterMap.mpr ⟨(p, c), hmem, hh⟩, ?_⟩
      rw [handleFile_some hh]

theorem updateIndexCache_nil (cache : IndexCache) (now : Nat) :
    updateIndexCache cache [] now = cache :=
  rfl

theorem updateIndexCache_cons (cache : IndexCache) (f : FileToIndex)
    (rest : List FileToIndex) (now : Nat) :
    updateIndexCache cache (f :: rest) now
      = updateIndexCache (assocInsert cache f.file_path ⟨f.file_hash, now⟩) rest now :=
  rfl

theorem update_find_not_mem (now : Nat) (p : String) :
    ∀ (toIndex : List FileToIndex) (cache : IndexCache),
      p ∉ toIndex.map (fun f => f.file_path) →
      assocFind? (updateIndexCache cache toIndex now) p = assocFind? cache p := by
  intro toIndex
  induction toIndex with
  | nil =>
    intro cache _
    rfl
  | cons f rest ih =>
    intro cache hp
    simp only [List.map_cons, List.mem_cons, not_or] at hp
    rw [updateIndexCache_cons,
      ih (assocInsert cache f.file_path ⟨f.file_hash, now⟩) hp.2,
      assocFind?_insert_ne _ _ _ _ hp.1]

theorem update_find_mem (now : Nat) :
    ∀ (toIndex : List FileToIndex) (cache : IndexCache) (f : FileToIndex),
      (toIndex.map (fun g => g.file_path)).Nodup → f ∈ toIndex →
      assocFind? (updateIndexCache cache toIndex now) f.file_path
        = some ⟨f.file_hash, now⟩ := by
  intro toIndex
  induction toIndex with
  | nil =>
    intro cache f _ hmem
    simp at hmem
  | cons g rest ih =>
    intro cache f hnd hmem
    simp only [List.map_cons, List.nodup_cons] at hnd
    rw [updateIndexCache_cons]
    rcases List.mem_cons.mp hmem with heq | hmem2
    · subst heq
      rw [update_find_not_mem now f.file_path rest _ hnd.1, assocFind?_insert_self]
    · exact ih _ f hnd.2 hmem2

theorem update_keys (now : Nat) (p : String) :
    ∀ (toIndex : List FileToIndex) (cache : IndexCache),
      p ∈ (updateIndexCache cache toIndex now).map Prod.fst ↔
        p ∈ cache.map Prod.fst ∨ p ∈ toIndex.map (fun f => f.file_path) := by
  intro toIndex
  induction toIndex with
  | nil =>
    intro cache
    simp [updateIndexCache]
  | cons f rest ih =>
    intro cache
    rw [updateIndexCache_cons, ih, mem_keys_insert]
    simp only [List.map_cons, List.mem_cons]
    tauto

theorem mem_filesToDelete (cache : IndexCache) (paths : List String) (p : String) :
    p ∈ filesToDelete cache paths ↔ p ∈ cache.map Prod.fst ∧ p ∉ paths := by
  simp [filesToDelete, List.mem_filter]

theorem handleFilesToDelete_eq (paths : List String) (store : Store)
    (cache : IndexCache) :
    handleFilesToDelete paths store cache =
      (List.filter (fun e => decide (e.file_path ∉ filesToDelete cache paths)) store,
       List.filter (fun x => decide (x.1 ∉ filesToDelete cache paths)) cache) := by
  unfold handleFilesToDelete deleteWhereFilePath removeFileFromIndexCache
  rw [foldl_prod_split
      (fun (s : Store) (p : String) => List.filter (fun e => decide (e.file_path ≠ p)) s)
      (fun (c : IndexCache) (p : String) => List.filter (fun x => decide (x.1 ≠ p)) c)]
  rw [foldl_remove_eq_filter (fun (e : StoreEntry) => e.file_path),
    foldl_remove_eq_filter (fun (x : String × IndexEntry) => x.1)]

theorem addFilesToVectorDb_ok (hashFn : List Char → String) :
    ∀ (l : List FileToIndex) (store : Store),
      addFilesToVectorDb hashFn (fun _ => false) store l
        = (l.foldl (addFileChunks hashFn) store, true) := by
  intro l
  induction l with
  | nil =>
    intro store
    rfl
  | cons f rest ih =>
    intro store
    simp only [addFilesToVectorDb, if_neg (by simp : ¬(false = true)), List.foldl_cons]
    exact ih (addFileChunks hashFn store f)

theorem addFilesToVectorDb_fails (hashFn : List Char → String)
    (storeFails : String → Bool) :
    ∀ (l : List FileToIndex) (store : Store),
      (∃ f ∈ l, storeFails f.file_path = true) →
      (addFilesToVectorDb hashFn storeFails store l).2 = false := by
  intro l
  induction l with
  | nil =>
    intro store h
    simp at h
  | cons g rest ih =>
    intro store h
    by_cases hg : storeFails g.file_path = true
    · simp [addFilesToVectorDb, hg]
    · obtain ⟨f, hf, hfail⟩ := h
      rcases List.mem_cons.mp hf with heq | hmem
      · exact absurd (heq ▸ hfail) hg
      · simp only [addFilesToVectorDb, if_neg hg]
        exact ih _ ⟨f, hmem, hfail⟩

/-- A clean run (no store failure) of `index_codebase` in closed form:
queued chunks added, index cache updated, vanished files deleted, result
persisted. -/
theorem indexCodebase_ok (hashFn : List Char → String) (now : Nat)
    (corpus : List (String × List Char)) (cache0 : IndexCache) (store0 : Store) :
    indexCodebase hashFn (fun _ => false) now corpus cache0 store0
      = ⟨List.filter
          (fun e => decide (e.file_path ∉ filesToDelete
            (updateIndexCache cache0 (scanCodebase hashFn cache0 corpus) now)
            (allFilePaths corpus)))
          ((scanCodebase hashFn cache0 corpus).foldl (addFileChunks hashFn) store0),
        List.filter
          (fun x => decide (x.1 ∉ filesToDelete
            (updateIndexCache cache0 (scanCodebase hashFn cache0 corpus) now)
            (allFilePaths corpus)))
          (updateIndexCache cache0 (scanCodebase hashFn cache0 corpus) now),
        false⟩ := by
  simp only [indexCodebase]
  rw [addFilesToVectorDb_ok, handleFilesToDelete_eq]
  simp

/-- After one clean `index_codebase` run over a duplicate-free corpus, the
persisted index maps every corpus path to the hash of its current
normalized content. -/
theorem stored_hash_after_run (hashFn : List Char → String) (now : Nat)
    (corpus : List (String × List Char)) (cache0 : IndexCache)
    (hnd : (allFilePaths corpus).Nodup) {p : String} {c : List Char}
    (hmem : (p, c) ∈ corpus) :
    getStoredFileHash
      (List.filter
        (fun x => decide (x.1 ∉ filesToDelete
          (updateIndexCache cache0 (scanCodebase hashFn cache0 corpus) now)
          (allFilePaths corpus)))
        (updateIndexCache cache0 (scanCodebase hashFn cache0 corpus) now)) p
      = some (hashFn (normalizeContent c)) := by
  have hppath : p ∈ allFilePaths corpus := List.mem_map.mpr ⟨(p, c), hmem, rfl⟩
  have hpdel : p ∉ filesToDelete
      (updateIndexCache cache0 (scanCodebase hashFn cache0 corpus) now)
      (allFilePaths corpus) := by
    intro hp
    exact ((mem_filesToDelete _ _ _).mp hp).2 hppath
  have hstep : getStoredFileHash
      (List.filter
        (fun x => decide (x.1 ∉ filesToDelete
          (updateIndexCache cache0 (scanCodebase hashFn cache0 corpus) now)
          (allFilePaths corpus)))
        (updateIndexCache cache0 (scanCodebase hashFn cache0 corpus) now)) p
      = getStoredFileHash
        (updateIndexCache cache0 (scanCodebase hashFn cache0 corpus) now) p := by
    unfold getStoredFileHash
    rw [assocFind?_filter_key _
      (fun k => decide (k ∉ filesToDelete
        (updateIndexCache cache0 (scanCodebase hashFn cache0 corpus) now)
        (allFilePaths corpus))) p]
    rw [if_pos (decide_eq_true hpdel)]
  rw [hstep]
  cases hfind : assocFind? cache0 p with
  | none =>
    have hsome : handleFile hashFn cache0 p c
        = some ⟨p, hashFn (normalizeContent c), normalizeContent c⟩ := by
      simp [handleFile, getStoredFileHash, hfind]
    have hfm : (⟨p, hashFn (normalizeContent c), normalizeContent c⟩ : FileToIndex)
        ∈ scanCodebase hashFn cache0 corpus :=
      List.mem_filterMap.mpr ⟨(p, c), hmem, hsome⟩
    have := update_find_mem now (scanCodebase hashFn cache0 corpus) cache0 _
      (scan_paths_nodup hashFn cache0 corpus hnd) hfm
    unfold getStoredFileHash
    rw [this]
    rfl
  | some e0 =>
    by_cases hc : e0.file_hash = "" ∨ hashFn (normalizeContent c) ≠ e0.file_hash
    · have hsome : handleFile hashFn cache0 p c
          = some ⟨p, hashFn (normalizeContent c), normalizeContent c⟩ := by
        simp only [handleFile, getStoredFileHash, hfind, Option.map_some']
        simp only [if_pos hc]
      have hfm : (⟨p, hashFn (normalizeContent c), normalizeContent c⟩ : FileToIndex)
          ∈ scanCodebase hashFn cache0 corpus :=
        List.mem_filterMap.mpr ⟨(p, c), hmem, hsome⟩
      have := update_find_mem now (scanCodebase hashFn cache0 corpus) cache0 _
        (scan_paths_nodup hashFn cache0 corpus hnd) hfm
      unfold getStoredFileHash
      rw [this]
      rfl
    · push_neg at hc
      have hfindc : assocFind? corpus p = some c := assocFind?_of_nodup_mem hnd hmem
      have hnone : handleFile hashFn cache0 p c = none := by
        simp only [handleFile, getStoredFileHash, hfind, Option.map_some']
        rw [if_neg]
        push_neg
        exact hc
      have hnotin : p ∉ (scanCodebase hashFn cache0 corpus).map
          (fun f => f.file_path) := by
        intro hin
        obtain ⟨c2, hfind2, hne2⟩ :=
          (mem_scan_paths_iff hashFn cache0 corpus hnd p).mp hin
        have hcc : c2 = c := Option.some.inj (hfind2.symm.trans hfindc)
        exact hne2 (hcc ▸ hnone)
      unfold getStoredFileHash
      rw [update_find_not_mem now p _ _ hnotin, hfind, Option.map_some', hc.2]

/-- After one clean run, every key of the persisted index is a corpus
path. -/
theorem run_cache_keys_sub (hashFn : List Char → String) (now : Nat)
    (corpus : List (String × List Char)) (cache0 : IndexCache) :
    ∀ x ∈ List.filter
        (fun x => decide (x.1 ∉ filesToDelete
          (updateIndexCache cache0 (scanCodebase hashFn cache0 corpus) now)
          (allFilePaths corpus)))
        (updateIndexCache cache0 (scanCodebase hashFn cache0 corpus) now),
      x.1 ∈ allFilePaths corpus := by
  intro x hx
  rw [List.mem_filter] at hx
  obtain ⟨hx1, hx2⟩ := hx
  rw [decide_eq_true_eq] at hx2
  by_contra hnp
  exact hx2 ((mem_filesToDelete _ _ _).mpr ⟨List.mem_map.mpr ⟨x, hx1, rfl⟩, hnp⟩)

/-- C1: when file contents are unchanged between two consecutive runs of
`index_codebase` and the first run completed and persisted its index, the
second run's change set is empty — `_files_to_index = []` and
`_files_to_delete = ∅` — and the second run leaves the vector store (and
the persisted index) exactly as the first run left them. -/
theorem index_codebase_idempotent (hashFn : List Char → String) (now1 now2 : Nat)
    (corpus : List (String × List Char)) (cache0 : IndexCache) (store0 : Store)
    (hnd : (allFilePaths corpus).Nodup)
    (hnz : ∀ pc ∈ corpus, hashFn (normalizeContent pc.2) ≠ "") :
    scanCodebase hashFn
        (indexCodebase hashFn (fun _ => false) now1 corpus cache0 store0).persistedCache
        corpus = [] ∧
    filesToDelete
        (indexCodebase hashFn (fun _ => false) now1 corpus cache0 store0).persistedCache
        (allFilePaths corpus) = [] ∧
    indexCodebase hashFn (fun _ => false) now2 corpus
        (indexCodebase hashFn (fun _ => false) now1 corpus cache0 store0).persistedCache
        (indexCodebase hashFn (fun _ => false) now1 corpus cache0 store0).store
      = ⟨(indexCodebase hashFn (fun _ => false) now1 corpus cache0 store0).store,
          (indexCodebase hashFn (fun _ => false) now1 corpus cache0 store0).persistedCache,
          false⟩ := by
  rw [indexCodebase_ok hashFn now1 corpus cache0 store0]
  simp only
  have hscan : scanCodebase hashFn
      (List.filter
        (fun x => decide (x.1 ∉ filesToDelete
          (updateIndexCache cache0 (scanCodebase hashFn cache0 corpus) now1)
          (allFilePaths corpus)))
        (updateIndexCache cache0 (scanCodebase hashFn cache0 corpus) now1))
      corpus = [] := by
    rw [scanCodebase, List.filterMap_eq_nil_iff]
    rintro ⟨p, c⟩ hmem
    have hz := hnz _ hmem
    have hA := stored_hash_after_run hashFn now1 corpus cache0 hnd hmem
    simp only at hz
    simp only [handleFile, hA]
    simp [hz]
  have hdel : filesToDelete
      (List.filter
        (fun x => decide (x.1 ∉ filesToDelete
          (updateIndexCache cache0 (scanCodebase hashFn cache0 corpus) now1)
          (allFilePaths corpus)))
        (updateIndexCache cache0 (scanCodebase hashFn cache0 corpus) now1))
      (allFilePaths corpus) = [] := by
    rw [filesToDelete, List.filter_eq_nil_iff]
    intro k hk
    obtain ⟨x, hx, hxk⟩ := List.mem_map.mp hk
    have := run_cache_keys_sub hashFn now1 corpus cache0 x hx
    simp [← hxk, this]
  refine ⟨hscan, hdel, ?_⟩
  rw [indexCodebase_ok hashFn now2 corpus _ _, hscan, updateIndexCache_nil,
    List.foldl_nil, hdel]
  simp

/-! ### ChangeSet classification (C2)

The four buckets, read off `_handle_file` (added/modified/unchanged) and
`_get_files_to_delete` (removed).  A unit id is a file path; its current
content is looked up in the scanned corpus, its stored hash in the
persisted index. -/

/-- Added: present in the scan, absent from the persisted index. -/
def classifiedAdded (cache : IndexCache) (corpus : List (String × List Char))
    (p : String) : Prop :=
  (∃ c, assocFind? corpus p = some c) ∧ getStoredFileHash cache p = none

/-- Modified: present in both, with a differing content hash. -/
def classifiedModified (hashFn : List Char → String) (cache : IndexCache)
    (corpus : List (String × List Char)) (p : String) : Prop :=
  ∃ c sh, assocFind? corpus p = some c ∧ getStoredFileHash cache p = some sh ∧
    hashFn (normalizeContent c) ≠ sh

/-- Unchanged: present in both, with an equal content hash. -/
def classifiedUnchanged (hashFn : List Char → String) (cache : IndexCache)
    (corpus : List (String × List Char)) (p : String) : Prop :=
  ∃ c sh, assocFind? corpus p = some c ∧ getStoredFileHash cache p = some sh ∧
    hashFn (normalizeContent c) = sh

/-- Removed: an index key absent from the current scan. -/
def classifiedRemoved (cache : IndexCache) (corpus : List (String × List Char))
    (p : String) : Prop :=
  getStoredFileHash cache p ≠ none ∧ assocFind? corpus p = none

theorem mem_allFilePaths_iff (corpus : List (String × List Char)) (p : String) :
    p ∈ allFilePaths corpus ↔ ∃ c, assocFind? corpus p = some c := by
  rw [allFilePaths]
  constructor
  · intro h
    cases hf : assocFind? corpus p with
    | none => exact absurd h ((assocFind?_eq_none_iff corpus p).mp hf)
    | some c => exact ⟨c, rfl⟩
  · rintro ⟨c, hc⟩
    by_contra hn
    rw [(assocFind?_eq_none_iff corpus p).mpr hn] at hc
    cases hc

theorem mem_cache_keys_iff (cache : IndexCache) (p : String) :
    p ∈ cache.map Prod.fst ↔ getStoredFileHash cache p ≠ none := by
  rw [getStoredFileHash, Ne, Option.map_eq_none']
  constructor
  · intro h hc
    exact (assocFind?_eq_none_iff cache p).mp hc h
  · intro h
    by_contra hn
    exact h ((assocFind?_eq_none_iff cache p).mpr hn)

/-- C2: against a persisted index whose stored hashes are real digests
(non-empty, as sha256 hexdigests are), every unit id is classified into
exactly one of added/modified/unchanged/removed; the scan queue
`_files_to_index` holds exactly the added and modified ids, the deletion
set `_files_to_delete` computed by the run holds exactly the removed ids,
and an unchanged id is touched by neither. -/
theorem changeset_partition (hashFn : List Char → String) (cache : IndexCache)
    (corpus : List (String × List Char)) (now : Nat) (p : String)
    (hnd : (allFilePaths corpus).Nodup)
    (hwf : ∀ e ∈ cache, e.2.file_hash ≠ "") :
    ((p ∈ allFilePaths corpus ∨ p ∈ cache.map Prod.fst) →
      (classifiedAdded cache corpus p ∨ classifiedModified hashFn cache corpus p ∨
        classifiedUnchanged hashFn cache corpus p ∨ classifiedRemoved cache corpus p)) ∧
    (¬(classifiedAdded cache corpus p ∧ classifiedModified hashFn cache corpus p) ∧
      ¬(classifiedAdded cache corpus p ∧ classifiedUnchanged hashFn cache corpus p) ∧
      ¬(classifiedAdded cache corpus p ∧ classifiedRemoved cache corpus p) ∧
      ¬(classifiedModified hashFn cache corpus p ∧
          classifiedUnchanged hashFn cache corpus p) ∧
      ¬(classifiedModified hashFn cache corpus p ∧ classifiedRemoved cache corpus p) ∧
      ¬(classifiedUnchanged hashFn cache corpus p ∧ classifiedRemoved cache corpus p)) ∧
    (p ∈ (scanCodebase hashFn cache corpus).map (fun f => f.file_path) ↔
      classifiedAdded cache corpus p ∨ classifiedModified hashFn cache corpus p) ∧
    (p ∈ filesToDelete (updateIndexCache cache (scanCodebase hashFn cache corpus) now)
        (allFilePaths corpus) ↔ classifiedRemoved cache corpus p) ∧
    (classifiedUnchanged hashFn cache corpus p →
      p ∉ (scanCodebase hashFn cache corpus).map (fun f => f.file_path) ∧
      p ∉ filesToDelete (updateIndexCache cache (scanCodebase hashFn cache corpus) now)
        (allFilePaths corpus)) := by
  have hshne : ∀ sh, getStoredFileHash cache p = some sh → sh ≠ "" := by
    intro sh hsh
    rw [getStoredFileHash] at hsh
    cases hf : assocFind? cache p with
    | none => rw [hf] at hsh; cases hsh
    | some e =>
      rw [hf, Option.map_some'] at hsh
      have := hwf (p, e) (assocFind?_some_mem hf)
      rw [Option.some.inj hsh] at this
      exact this
  have hcover : (p ∈ allFilePaths corpus ∨ p ∈ cache.map Prod.fst) →
      (classifiedAdded cache corpus p ∨ classifiedModified hashFn cache corpus p ∨
        classifiedUnchanged hashFn cache corpus p ∨
        classifiedRemoved cache corpus p) := by
    intro hin
    cases hfc : assocFind? corpus p with
    | none =>
      have hR : getStoredFileHash cache p ≠ none := by
        rcases hin with hin | hin
        · exact absurd ((mem_allFilePaths_iff corpus p).mp hin)
            (by simp [hfc])
        · exact (mem_cache_keys_iff cache p).mp hin
      exact Or.inr (Or.inr (Or.inr ⟨hR, hfc⟩))
    | some c =>
      cases hsc : getStoredFileHash cache p with
      | none => exact Or.inl ⟨⟨c, hfc⟩, hsc⟩
      | some sh =>
        by_cases he : hashFn (normalizeContent c) = sh
        · exact Or.inr (Or.inr (Or.inl ⟨c, sh, hfc, hsc, he⟩))
        · exact Or.inr (Or.inl ⟨c, sh, hfc, hsc, he⟩)
  have hscanlink : p ∈ (scanCodebase hashFn cache corpus).map (fun f => f.file_path) ↔
      classifiedAdded cache corpus p ∨ classifiedModified hashFn cache corpus p := by
    rw [mem_scan_paths_iff hashFn cache corpus hnd p]
    constructor
    · rintro ⟨c, hc, hne⟩
      cases hsc : getStoredFileHash cache p with
      | none => exact Or.inl ⟨⟨c, hc⟩, hsc⟩
      | some sh =>
        by_cases he : hashFn (normalizeContent c) = sh
        · exfalso
          apply hne
          simp only [handleFile, hsc]
          rw [if_neg]
          push_neg
          exact ⟨hshne sh hsc, by rw [he]⟩
        · exact Or.inr ⟨c, sh, hc, hsc, he⟩
    · rintro (⟨⟨c, hc⟩, hsc⟩ | ⟨c, sh, hc, hsc, he⟩)
      · refine ⟨c, hc, ?_⟩
        simp [handleFile, hsc]
      · refine ⟨c, hc, ?_⟩
        simp only [handleFile, hsc]
        rw [if_pos (Or.inr he)]
        simp
  have hdellink : p ∈ filesToDelete
      (updateIndexCache cache (scanCodebase hashFn cache corpus) now)
      (allFilePaths corpus) ↔ classifiedRemoved cache corpus p := by
    rw [mem_filesToDelete, update_keys]
    constructor
    · rintro ⟨hin, hout⟩
      have hnotscan : p ∉ (scanCodebase hashFn cache corpus).map
          (fun f => f.file_path) := by
        intro hs
        exact hout ((scan_paths_sublist hashFn cache corpus).subset hs)
      have hkey : p ∈ cache.map Prod.fst := by
        rcases hin with hin | hin
        · exact hin
        · exact absurd hin hnotscan
      refine ⟨(mem_cache_keys_iff cache p).mp hkey, ?_⟩
      by_contra hn
      rcases Option.ne_none_iff_exists'.mp hn with ⟨c, hc⟩
      exact hout ((mem_allFilePaths_iff corpus p).mpr ⟨c, hc⟩)
    · rintro ⟨hsome, hnone⟩
      have hout : p ∉ allFilePaths corpus := by
        intro hin
        rcases (mem_allFilePaths_iff corpus p).mp hin with ⟨c, hc⟩
        rw [hnone] at hc
        cases hc
      exact ⟨Or.inl ((mem_cache_keys_iff cache p).mpr hsome), hout⟩
  refine ⟨hcover, ⟨?_, ?_, ?_, ?_, ?_, ?_⟩, hscanlink, hdellink, ?_⟩
  · rintro ⟨⟨_, hA⟩, ⟨c, sh, _, hM, _⟩⟩
    rw [hA] at hM
    cases hM
  · rintro ⟨⟨_, hA⟩, ⟨c, sh, _, hU, _⟩⟩
    rw [hA] at hU
    cases hU
  · rintro ⟨⟨_, hA⟩, hR, _⟩
    exact hR hA
  · rintro ⟨⟨c, sh, hc, hsh, hne⟩, ⟨c2, sh2, hc2, hsh2, heq⟩⟩
    have h1 : c2 = c := Option.some.inj (hc2.symm.trans hc)
    have h2 : sh2 = sh := Option.some.inj (hsh2.symm.trans hsh)
    rw [h1, h2] at heq
    exact hne heq
  · rintro ⟨⟨c, sh, hc, _, _⟩, _, hR⟩
    rw [hR] at hc
    cases hc
  · rintro ⟨⟨c, sh, hc, _, _⟩, _, hR⟩
    rw [hR] at hc
    cases hc
  · intro hU
    constructor
    · intro hs
      rcases hscanlink.mp hs with hA | hM
      · obtain ⟨c, sh, hc, hsh, _⟩ := hU
        rw [hA.2] at hsh
        cases hsh
      · obtain ⟨c, sh, hc, hsh, hne⟩ := hM
        obtain ⟨c2, sh2, hc2, hsh2, heq⟩ := hU
        have h1 : c2 = c := Option.some.inj (hc2.symm.trans hc)
        have h2 : sh2 = sh := Option.some.inj (hsh2.symm.trans hsh)
        rw [h1, h2] at heq
        exact hne heq
    · intro hd
      obtain ⟨c, sh, hc, hsh, _⟩ := hU
      rw [(hdellink.mp hd).2] at hc
      cases hc

/-! ### C4 and C5: reconciliation of modified units and failure handling -/

/-- C4 evaluated at a failing input: file `f.py` previously had (normalized)
content `"A"` (one chunk, id `"A"`, stored hash `"A"`) and now has content
`"B"`.  The run treats it as modified and completes without aborting, yet the
stale chunk `("A", "A", "f.py")` is still in the collection afterwards —
`index_codebase` never deletes a modified unit's existing chunks, contrary to
the module docstring ("If the file has changed, we will remove the existing
embeddings from the vector db and add the new embeddings"). -/
theorem modified_unit_stale_chunk :
    getStoredFileHash [("f.py", ⟨"A", 0⟩)] "f.py" = some "A" ∧
    List.asString (normalizeContent "B".toList) = "B" ∧
    (indexCodebase List.asString (fun _ => false) 1 [("f.py", "B".toList)]
        [("f.py", ⟨"A", 0⟩)] [⟨"A", "A".toList, "f.py"⟩]).aborted = false ∧
    (⟨"A", "A".toList, "f.py"⟩ : StoreEntry) ∈
      (indexCodebase List.asString (fun _ => false) 1 [("f.py", "B".toList)]
        [("f.py", ⟨"A", 0⟩)] [⟨"A", "A".toList, "f.py"⟩]).store ∧
    (⟨"B", "B".toList, "f.py"⟩ : StoreEntry) ∈
      (indexCodebase List.asString (fun _ => false) 1 [("f.py", "B".toList)]
        [("f.py", ⟨"A", 0⟩)] [⟨"A", "A".toList, "f.py"⟩]).store := by
  decide

/-- C5 counterexample: with two queued files where adding the first one's
chunks raises, `index_codebase` aborts — the second file is never
reconciled (the store stays empty) and the final index write never runs
(the persisted index stays empty) — contradicting the claim that the
failure is caught at the unit boundary and the run completes. -/
theorem reconcile_failure_aborts_run :
    (indexCodebase List.asString (fun p => decide (p = "a.py")) 0
        [("a.py", "x".toList), ("b.py", "y".toList)] [] []).aborted = true ∧
    (indexCodebase List.asString (fun p => decide (p = "a.py")) 0
        [("a.py", "x".toList), ("b.py", "y".toList)] [] []).persistedCache = [] ∧
    (indexCodebase List.asString (fun p => decide (p = "a.py")) 0
        [("a.py", "x".toList), ("b.py", "y".toList)] [] []).store = [] := by
  decide

/-- C5 amended: `_add_files_to_vector_db` has no try/except, so an exception
while adding one queued unit's chunks propagates out of `index_codebase`:
the run aborts, the remaining units are not reconciled and
`_write_index_cache` never runs.  No IndexEntry is updated — the persisted
index is exactly what the run started from — so every queued unit
(including the failing one) is re-detected as added/modified by the next
run's scan. -/
theorem reconcile_failure_amended (hashFn : List Char → String)
    (storeFails : String → Bool) (now : Nat) (corpus : List (String × List Char))
    (cache0 : IndexCache) (store0 : Store)
    (hfail : ∃ f ∈ scanCodebase hashFn cache0 corpus, storeFails f.file_path = true) :
    (indexCodebase hashFn storeFails now corpus cache0 store0).aborted = true ∧
    (indexCodebase hashFn storeFails now corpus cache0 store0).persistedCache
      = cache0 ∧
    scanCodebase hashFn
        (indexCodebase hashFn storeFails now corpus cache0 store0).persistedCache
        corpus
      = scanCodebase hashFn cache0 corpus := by
  have h2 := addFilesToVectorDb_fails hashFn storeFails
    (scanCodebase hashFn cache0 corpus) store0 hfail
  simp [indexCodebase, h2]

/-- Witness for the amended C5 at the counterexample input. -/
theorem reconcile_failure_amended_witness :
    (indexCodebase List.asString (fun p => decide (p = "a.py")) 0
        [("a.py", "x".toList), ("b.py", "y".toList)] [] []).aborted = true ∧
    (indexCodebase List.asString (fun p => decide (p = "a.py")) 0
        [("a.py", "x".toList), ("b.py", "y".toList)] [] []).persistedCache = [] ∧
    scanCodebase List.asString
        (indexCodebase List.asString (fun p => decide (p = "a.py")) 0
          [("a.py", "x".toList), ("b.py", "y".toList)] [] []).persistedCache
        [("a.py", "x".toList), ("b.py", "y".toList)]
      = scanCodebase List.asString []
          [("a.py", "x".toList), ("b.py", "y".toList)] :=
  reconcile_failure_amended List.asString (fun p => decide (p = "a.py")) 0
    [("a.py", "x".toList), ("b.py", "y".toList)] [] []
    ⟨⟨"a.py", "x", "x".toList⟩, by decide, by decide⟩

/-- Witness for C1: a one-file corpus, empty initial index and store. -/
theorem index_codebase_idempotent_witness :
    indexCodebase List.asString (fun _ => false) 1 [("a.py", "x".toList)]
        (indexCodebase List.asString (fun _ => false) 0 [("a.py", "x".toList)]
          [] []).persistedCache
        (indexCodebase List.asString (fun _ => false) 0 [("a.py", "x".toList)]
          [] []).store
      = ⟨(indexCodebase List.asString (fun _ => false) 0 [("a.py", "x".toList)]
            [] []).store,
          (indexCodebase List.asString (fun _ => false) 0 [("a.py", "x".toList)]
            [] []).persistedCache,
          false⟩ :=
  (index_codebase_idempotent List.asString 0 1 [("a.py", "x".toList)] [] []
    (by decide) (by decide)).2.2

/-- Witness for C2: index `{same.py ↦ "x", old.py ↦ "h"}` scanned against
corpus `{same.py: "x", new.py: "y"}` (with `hashFn` the identity on text),
checked at the removed id `old.py`. -/
theorem changeset_partition_witness :
    "old.py" ∈ filesToDelete
        (updateIndexCache [("same.py", ⟨"x", 0⟩), ("old.py", ⟨"h", 0⟩)]
          (scanCodebase List.asString [("same.py", ⟨"x", 0⟩), ("old.py", ⟨"h", 0⟩)]
            [("same.py", "x".toList), ("new.py", "y".toList)])
          7)
        (allFilePaths [("same.py", "x".toList), ("new.py", "y".toList)]) ↔
      classifiedRemoved [("same.py", ⟨"x", 0⟩), ("old.py", ⟨"h", 0⟩)]
        [("same.py", "x".toList), ("new.py", "y".toList)] "old.py" :=
  (changeset_partition List.asString [("same.py", ⟨"x", 0⟩), ("old.py", ⟨"h", 0⟩)]
    [("same.py", "x".toList), ("new.py", "y".toList)] 7 "old.py"
    (by decide) (by decide)).2.2.2.1

/-! ## Retrieval status (changelog_registry.py) -/

/-- `ChangeLogRetrievalStatus(Enum)`. -/
inductive ChangeLogRetrievalStatus where
  | SUCCESS
  | FAILURE
  | NOT_FOUND
deriving DecidableEq

/-- `ChangelogRetrievalResult` (pydantic model; summary field omitted, it is
only written by callers). -/
structure ChangelogRetrievalResult where
  status : ChangeLogRetrievalStatus
  changelog : String
deriving DecidableEq

/-- A propagating Python exception, identified by its type. -/
inductive PyErr where
  | attributeError
  | networkError
  | jsonDecodeError
deriving DecidableEq

/-! ## ChangelogCache (cache.py)

One JSON file per package under `~/.anjin_cache/changelogs/`.  For the
cache-logic claims the files on disk are readable and well-formed:
`CacheFS` maps a package name to its parsed dict, and a package with no
file maps to nothing (`load` then returns `{}`).  Corrupt files are the
subject of the separate load model further below. -/

/-- One package's parsed cache file:
`{ "<current>_<latest>": "<changelog text>" }`. -/
abbrev ChangelogDict : Type := List (String × String)

/-- The changelog cache directory: package name to parsed file. -/
abbrev CacheFS : Type := List (String × ChangelogDict)

/-- `ChangelogCache.load(package)` on a readable directory: the package's
parsed file, `{}` when the file does not exist. -/
def cacheLoad (fs : CacheFS) (package : String) : ChangelogDict :=
  (assocFind? fs package).getD []

/-- The composite key `f"{current_version}_{latest_version}"`. -/
def versionKey (currentVersion latestVersion : String) : String :=
  currentVersion ++ "_" ++ latestVersion

/-- `ChangelogCache.get`. -/
def cacheGet (fs : CacheFS) (package currentVersion latestVersion : String) :
    Option String :=
  assocFind? (cacheLoad fs package) (versionKey currentVersion latestVersion)

/-- `ChangelogCache.contains`: `key in self.load(package)`. -/
def cacheContains (fs : CacheFS) (package currentVersion latestVersion : String) :
    Bool :=
  assocHasKey (cacheLoad fs package) (versionKey currentVersion latestVersion)

/-- `ChangelogCache.set`: load, add the key, save the whole file back. -/
def cacheSet (fs : CacheFS) (package currentVersion latestVersion changelog : String) :
    CacheFS :=
  assocInsert fs package
    (assocInsert (cacheLoad fs package) (versionKey currentVersion latestVersion)
      changelog)

/-! ## DependencyRunner (dependency.py) -/

/-- `DependencyRunner._filter_changelog_by_version` iterates
`self._changelog.items()`.  The field is declared and assigned as
`str | None` (initialized to `None` and only ever set to the filtered
string), and neither `None` nor `str` has an `.items` method, so the call
raises `AttributeError` whichever value the field holds. -/
def filterChangelogByVersion (selfChangelog : Option String) : Except PyErr String :=
  match selfChangelog with
  | none => Except.error PyErr.attributeError
  | some _ => Except.error PyErr.attributeError

/-- Observable outcome of one `DependencyRunner._fetch_changelog` call: the
value returned (only the cache-hit path returns one; `run()` ignores it),
the `_changelog_retrieval_status` and `_changelog` fields afterwards, the
cache directory afterwards, whether the remote retrieval `changelogs.get`
was invoked, and whether `ChangelogCache.set` was invoked. -/
structure FetchOutcome where
  returned : Option ChangelogRetrievalResult
  status : Option ChangeLogRetrievalStatus
  changelog : Option String
  fs : CacheFS
  fetched : Bool
  didSet : Bool
deriving DecidableEq

/-- The `try:` body of `_fetch_changelog`: call `changelogs.get`; a truthy
(non-empty) result is version-filtered and, with the cache enabled, written
to the cache, then status and changelog are set to `SUCCESS`/the filtered
text; a falsy result sets `NOT_FOUND`. -/
def fetchTryBody (useCache : Bool) (fs : CacheFS)
    (package currentVersion latestVersion : String) (selfChangelog : Option String)
    (remote : Except PyErr ChangelogDict) : Except PyErr FetchOutcome := do
  let changelog ← remote
  if changelog.isEmpty then
    pure ⟨none, some ChangeLogRetrievalStatus.NOT_FOUND, selfChangelog, fs, true, false⟩
  else do
    let filtered ← filterChangelogByVersion selfChangelog
    let fs1 := if useCache then
        cacheSet fs package currentVersion latestVersion filtered
      else fs
    pure ⟨none, some ChangeLogRetrievalStatus.SUCCESS, some filtered, fs1, true, useCache⟩

/-- `DependencyRunner._fetch_changelog`: with the cache enabled and the key
present, return the cached text as a `SUCCESS` result without touching the
remote collaborator, the cache, or the object state; otherwise run the try
body, catching any exception as status `FAILURE` (by then `changelogs.get`
has been invoked). -/
def fetchChangelog (useCache : Bool) (fs : CacheFS)
    (package currentVersion latestVersion : String) (selfChangelog : Option String)
    (statusIn : Option ChangeLogRetrievalStatus)
    (remote : Except PyErr ChangelogDict) : FetchOutcome :=
  if useCache = true ∧ cacheContains fs package currentVersion latestVersion = true then
    ⟨some ⟨ChangeLogRetrievalStatus.SUCCESS,
        (cacheGet fs package currentVersion latestVersion).getD ""⟩,
      statusIn, selfChangelog, fs, false, false⟩
  else
    match fetchTryBody useCache fs package currentVersion latestVersion selfChangelog
        remote with
    | Except.ok o => o
    | Except.error _ =>
      ⟨none, some ChangeLogRetrievalStatus.FAILURE, selfChangelog, fs, true, false⟩

/-- How a `DependencyRunner.run` task finishes: ignored, reported as up to
date, or completed ("[green]Completed"). -/
inductive TaskEnd where
  | ignoredEnd
  | upToDateEnd
  | completedEnd
deriving DecidableEq

/-- Observable outcome of one `DependencyRunner.run` task. -/
structure RunResult where
  finish : TaskEnd
  status : Option ChangeLogRetrievalStatus
  changelog : Option String
  fs : CacheFS
  summarized : Bool
deriving DecidableEq

/-- `DependencyRunner._get_latest_version`: any exception from the HTTP
lookup is caught (printed) and leaves `_latest_version = None`; a non-200
response also leaves it `None`. -/
def getLatestVersion (lookupResult : Except PyErr (Option String)) : Option String :=
  match lookupResult with
  | Except.ok v => v
  | Except.error _ => none

/-- `DependencyRunner._handle_up_to_date`: the task is reported up to date
when no latest version is known or the latest version does not exceed the
current one.  `parseVersion` stands for `packaging.version.parse`, mapping
a version string to its rank. -/
def handleUpToDate (parseVersion : String → Nat) (latest : Option String)
    (currentVersion : String) : Bool :=
  match latest with
  | none => true
  | some l => decide (parseVersion l ≤ parseVersion currentVersion)

/-- `DependencyRunner.run`: return early when ignored; fetch the latest
version (exceptions swallowed); return early when (apparently) up to date;
otherwise fetch the changelog and summarize exactly when the retrieval
status is `SUCCESS`.  The runner starts with
`_changelog = None, _changelog_retrieval_status = None`.  (`latest.getD ""`
is evaluated only under `handleUpToDate = false`, which forces
`latest = some _`.) -/
def runTask (parseVersion : String → Nat) (ignored useCache : Bool) (fs : CacheFS)
    (package currentVersion : String)
    (lookupResult : Except PyErr (Option String))
    (remote : Except PyErr ChangelogDict) : RunResult :=
  if ignored then ⟨TaskEnd.ignoredEnd, none, none, fs, false⟩
  else
    let latest := getLatestVersion lookupResult
    if handleUpToDate parseVersion latest currentVersion then
      ⟨TaskEnd.upToDateEnd, none, none, fs, false⟩
    else
      let fo := fetchChangelog useCache fs package currentVersion (latest.getD "")
        none none remote
      ⟨TaskEnd.completedEnd, fo.status, fo.changelog, fo.fs,
        decide (fo.status = some ChangeLogRetrievalStatus.SUCCESS)⟩

/-- `ChangelogCache.set` is never reached in `_fetch_changelog`: every path
through the try body either raises before the `set` line (the version
filter always raises on `self._changelog : str | None`) or skips it
(`NOT_FOUND`), and the cache-hit path returns first. -/
theorem fetchChangelog_didSet_false (useCache : Bool) (fs : CacheFS)
    (package currentVersion latestVersion : String) (selfChangelog : Option String)
    (statusIn : Option ChangeLogRetrievalStatus)
    (remote : Except PyErr ChangelogDict) :
    (fetchChangelog useCache fs package currentVersion latestVersion selfChangelog
      statusIn remote).didSet = false := by
  by_cases h : useCache = true ∧ cacheContains fs package currentVersion latestVersion
      = true
  · simp [fetchChangelog, h]
  · simp only [fetchChangelog, if_neg h]
    cases remote with
    | error e => rfl
    | ok d =>
      cases d with
      | nil => rfl
      | cons x xs =>
        cases selfChangelog with
        | none => rfl
        | some s => rfl

/-- C6 counterexample: for a key the cache does not hold and a remote
retrieval that finds nothing, two consecutive `_fetch_changelog` runs both
invoke the remote retrieval — the expensive fetch is not limited to one
occurrence across repeated runs. -/
theorem cache_fetch_not_at_most_once :
    (fetchChangelog true [] "pkg" "1.0" "2.0" none none (Except.ok [])).fetched
      = true ∧
    (fetchChangelog true
        (fetchChangelog true [] "pkg" "1.0" "2.0" none none (Except.ok [])).fs
        "pkg" "1.0" "2.0" none none (Except.ok [])).fetched = true := by
  decide

/-- C6 amended: with the use-cache flag enabled, if the artifact cache
contains the key then `_fetch_changelog` returns status `SUCCESS` carrying
the cached text, without invoking the remote retrieval, without calling
`set`, and without touching the cache or the runner state; `set` is invoked
only when `contains` returned false beforehand; and across repeated runs
for a fixed key the cache write happens at most once — while the fetch may
recur as long as the key stays uncached. -/
theorem fetch_changelog_cache_amended (fs : CacheFS)
    (package currentVersion latestVersion : String) (selfChangelog : Option String)
    (statusIn : Option ChangeLogRetrievalStatus)
    (remote remote2 : Except PyErr ChangelogDict) (selfChangelog2 : Option String)
    (statusIn2 : Option ChangeLogRetrievalStatus) :
    (cacheContains fs package currentVersion latestVersion = true →
      ∃ t, cacheGet fs package currentVersion latestVersion = some t ∧
        fetchChangelog true fs package currentVersion latestVersion selfChangelog
            statusIn remote
          = ⟨some ⟨ChangeLogRetrievalStatus.SUCCESS, t⟩, statusIn, selfChangelog, fs,
              false, false⟩) ∧
    ((fetchChangelog true fs package currentVersion latestVersion selfChangelog
        statusIn remote).didSet = true →
      cacheContains fs package currentVersion latestVersion = false) ∧
    ¬((fetchChangelog true fs package currentVersion latestVersion selfChangelog
          statusIn remote).didSet = true ∧
      (fetchChangelog true
          (fetchChangelog true fs package currentVersion latestVersion selfChangelog
            statusIn remote).fs
          package currentVersion latestVersion selfChangelog2 statusIn2
          remote2).didSet = true) := by
  refine ⟨?_, ?_, ?_⟩
  · intro hc
    have hs : (cacheGet fs package currentVersion latestVersion).isSome = true := hc
    obtain ⟨t, ht⟩ := Option.isSome_iff_exists.mp hs
    refine ⟨t, ht, ?_⟩
    simp only [fetchChangelog]
    rw [if_pos ⟨trivial, hc⟩, ht]
    rfl
  · intro hds
    rw [fetchChangelog_didSet_false] at hds
    cases hds
  · rintro ⟨h1, _⟩
    rw [fetchChangelog_didSet_false] at h1
    cases h1

/-- Witness for the amended C6: a cache directory holding the key
`pkg/1.0_2.0`. -/
theorem fetch_changelog_cache_amended_witness :
    ∃ t, cacheGet [("pkg", [("1.0_2.0", "LOG")])] "pkg" "1.0" "2.0" = some t ∧
      fetchChangelog true [("pkg", [("1.0_2.0", "LOG")])] "pkg" "1.0" "2.0" none
          none (Except.ok [])
        = ⟨some ⟨ChangeLogRetrievalStatus.SUCCESS, t⟩, none, none,
            [("pkg", [("1.0_2.0", "LOG")])], false, false⟩ :=
  (fetch_changelog_cache_amended [("pkg", [("1.0_2.0", "LOG")])] "pkg" "1.0" "2.0"
    none none (Except.ok []) (Except.ok []) none none).1 (by decide)

/-- C7 counterexample: a network error during the version lookup does not
end the task as Errored with a Failure result — `_get_latest_version`
swallows the exception, leaves `_latest_version = None`, and
`_handle_up_to_date` then reports the package as up to date with no
retrieval status at all. -/
theorem version_lookup_error_reported_up_to_date :
    (runTask String.length false true [] "pkg" "1.0"
        (Except.error PyErr.networkError) (Except.ok [])).finish
      = TaskEnd.upToDateEnd ∧
    (runTask String.length false true [] "pkg" "1.0"
        (Except.error PyErr.networkError) (Except.ok [])).status = none := by
  decide

/-- C7 amended: a version-lookup network error is swallowed — the task
finishes as "up to date" with no Failure surfaced; a changelog-fetch
network error (with a newer version found and the key not cached) is
caught inside `_fetch_changelog` and surfaced as
`_changelog_retrieval_status = FAILURE` while the task still runs to
completion.  In both cases `run` returns normally, so sibling tasks and
the overall run are unaffected. -/
theorem network_error_handling_amended (parseVersion : String → Nat)
    (useCache : Bool) (fs : CacheFS) (package currentVersion lat : String)
    (e e2 : PyErr) (remote : Except PyErr ChangelogDict)
    (hnew : parseVersion currentVersion < parseVersion lat)
    (hmiss : cacheContains fs package currentVersion lat = false) :
    (runTask parseVersion false useCache fs package currentVersion
        (Except.error e) remote).finish = TaskEnd.upToDateEnd ∧
    (runTask parseVersion false useCache fs package currentVersion
        (Except.error e) remote).status = none ∧
    (runTask parseVersion false useCache fs package currentVersion
        (Except.ok (some lat)) (Except.error e2)).finish = TaskEnd.completedEnd ∧
    (runTask parseVersion false useCache fs package currentVersion
        (Except.ok (some lat)) (Except.error e2)).status
      = some ChangeLogRetrievalStatus.FAILURE := by
  have h1 : runTask parseVersion false useCache fs package currentVersion
      (Except.error e) remote = ⟨TaskEnd.upToDateEnd, none, none, fs, false⟩ := rfl
  have hup : handleUpToDate parseVersion (some lat) currentVersion = false := by
    simp only [handleUpToDate]
    rw [decide_eq_false (Nat.not_le.mpr hnew)]
  have hcond : ¬(useCache = true ∧ cacheContains fs package currentVersion lat
      = true) := by
    rintro ⟨_, hcon⟩
    rw [hmiss] at hcon
    cases hcon
  have hfc : fetchChangelog useCache fs package currentVersion lat none none
      (Except.error e2)
      = ⟨none, some ChangeLogRetrievalStatus.FAILURE, none, fs, true, false⟩ := by
    simp only [fetchChangelog, if_neg hcond]
    rfl
  have h2 : runTask parseVersion false useCache fs package currentVersion
      (Except.ok (some lat)) (Except.error e2)
      = ⟨TaskEnd.completedEnd, some ChangeLogRetrievalStatus.FAILURE, none, fs,
          false⟩ := by
    simp only [runTask, getLatestVersion, hup, Option.getD, hfc]
    simp
  rw [h1, h2]
  exact ⟨rfl, rfl, rfl, rfl⟩

/-- Witness for the amended C7: lookup fails with a network error in one
run; in the other the lookup finds the newer `1.0.1` and the changelog
fetch fails with a network error. -/
theorem network_error_handling_amended_witness :
    (runTask String.length false true [] "pkg" "1.0"
        (Except.error PyErr.networkError) (Except.ok [])).finish
      = TaskEnd.upToDateEnd ∧
    (runTask String.length false true [] "pkg" "1.0"
        (Except.error PyErr.networkError) (Except.ok [])).status = none ∧
    (runTask String.length false true [] "pkg" "1.0"
        (Except.ok (some "1.0.1")) (Except.error PyErr.networkError)).finish
      = TaskEnd.completedEnd ∧
    (runTask String.length false true [] "pkg" "1.0"
        (Except.ok (some "1.0.1")) (Except.error PyErr.networkError)).status
      = some ChangeLogRetrievalStatus.FAILURE :=
  network_error_handling_amended String.length true [] "pkg" "1.0" "1.0.1"
    PyErr.networkError PyErr.networkError (Except.ok []) (by decide) (by decide)

/-! ## Loading persisted JSON (cache.py `load`, vector.py `__init__`,
release_notes.py `load_cache`)

A cache file on disk is `none` when absent, `some none` when it exists but
holds invalid JSON (then `json.load` raises `json.JSONDecodeError`, which
none of the three callers catches), and `some (some v)` when it parses. -/

/-- `ChangelogCache.load(package)` at the file level. -/
def changelogCacheLoad (file : Option (Option ChangelogDict)) :
    Except PyErr ChangelogDict :=
  match file with
  | none => Except.ok []
  | some none => Except.error PyErr.jsonDecodeError
  | some (some d) => Except.ok d

/-- vector.py `__init__`: `self._index_cache = {}`, overwritten by
`json.load` when `index.json` exists. -/
def indexCacheLoad (file : Option (Option IndexCache)) : Except PyErr IndexCache :=
  match file with
  | none => Except.ok []
  | some none => Except.error PyErr.jsonDecodeError
  | some (some d) => Except.ok d

/-- release_notes.py `load_cache` for the global `changelog_cache.json`. -/
def releaseNotesLoadCache (file : Option (Option ChangelogDict)) :
    Except PyErr ChangelogDict :=
  match file with
  | none => Except.ok []
  | some none => Except.error PyErr.jsonDecodeError
  | some (some d) => Except.ok d

/-- C8 counterexample: a persisted cache file that exists but holds invalid
JSON makes every one of the three loaders raise `json.JSONDecodeError`
(uncaught) instead of treating the scope as an empty cache. -/
theorem corrupt_cache_file_raises :
    changelogCacheLoad (some none) = Except.error PyErr.jsonDecodeError ∧
    indexCacheLoad (some none) = Except.error PyErr.jsonDecodeError ∧
    releaseNotesLoadCache (some none) = Except.error PyErr.jsonDecodeError :=
  ⟨rfl, rfl, rfl⟩

/-- C8 amended: a missing cache file is treated as an empty cache for its
scope and a readable file is parsed, but an existing file with invalid
JSON raises an uncaught `json.JSONDecodeError` in all three loaders — the
load (and with it the surrounding run step) fails instead of falling back
to an empty cache. -/
theorem cache_load_amended (d : ChangelogDict) (ic : IndexCache)
    (g : ChangelogDict) :
    (changelogCacheLoad none = Except.ok [] ∧
      changelogCacheLoad (some (some d)) = Except.ok d ∧
      changelogCacheLoad (some none) = Except.error PyErr.jsonDecodeError) ∧
    (indexCacheLoad none = Except.ok [] ∧
      indexCacheLoad (some (some ic)) = Except.ok ic ∧
      indexCacheLoad (some none) = Except.error PyErr.jsonDecodeError) ∧
    (releaseNotesLoadCache none = Except.ok [] ∧
      releaseNotesLoadCache (some (some g)) = Except.ok g ∧
      releaseNotesLoadCache (some none) = Except.error PyErr.jsonDecodeError) :=
  ⟨⟨rfl, rfl, rfl⟩, ⟨rfl, rfl, rfl⟩, ⟨rfl, rfl, rfl⟩⟩

/-! ## The status-sentinel guard in `summarize_changes`
(openai_client.py and, identically, release_notes.py) -/

/-- The two runtime shapes that reach the guard: the `str` the annotation
promises, or a `ChangeLogRetrievalStatus` member. -/
inductive PyValue where
  | pyStr (s : String)
  | pyStatus (st : ChangeLogRetrievalStatus)
deriving DecidableEq

/-- Python `==` on those shapes: a `str` never equals a member of a plain
`Enum` (no `str` mixin), and members compare by identity. -/
def pyEq : PyValue → PyValue → Bool
  | PyValue.pyStr a, PyValue.pyStr b => decide (a = b)
  | PyValue.pyStatus a, PyValue.pyStatus b => decide (a = b)
  | _, _ => false

/-- The guard
`changelog in [ChangeLogRetrievalStatus.FAILURE, ChangeLogRetrievalStatus.NOT_FOUND]`
at the top of `summarize_changes`: Python `in` over a list literal is an
`==` sweep. -/
def statusSentinelGuard (changelog : PyValue) : Bool :=
  pyEq changelog (PyValue.pyStatus ChangeLogRetrievalStatus.FAILURE) ||
    pyEq changelog (PyValue.pyStatus ChangeLogRetrievalStatus.NOT_FOUND)

/-- Where `summarize_changes` goes after its guard: the early
`return "Changelog not found"`, or on to building the summarization prompt
from the changelog (prompt text and LLM call are external collaborators). -/
inductive SummarizeOutcome where
  | earlyReturn (msg : String)
  | buildsPrompt (changelog : PyValue)
deriving DecidableEq

/-- Entry control flow of `summarize_changes`. -/
def summarizeChanges (changelog : PyValue) : SummarizeOutcome :=
  if statusSentinelGuard changelog then SummarizeOutcome.earlyReturn "Changelog not found"
  else SummarizeOutcome.buildsPrompt changelog

/-- C10: for every string argument, the sentinel guard of
`summarize_changes` is false — a `str` is never `==` to an enum member — so
the early return "Changelog not found" is unreachable at the string-typed
interface and every such call proceeds to build the summarization prompt. -/
theorem status_sentinel_guard_dead (s : String) :
    statusSentinelGuard (PyValue.pyStr s) = false ∧
    summarizeChanges (PyValue.pyStr s)
      = SummarizeOutcome.buildsPrompt (PyValue.pyStr s) :=
  ⟨rfl, rfl⟩

/-- Witness for C3 at `text = "abcdefghij"`, `maxSize = 4`, `overlap = 1`. -/
theorem chunker_postcondition_witness :
    recursiveChunkWithOverlap "abcdefghij".toList 4 1 =
      ["abcd".toList, "defg".toList, "ghij".toList, "j".toList] :=
  (chunker_postcondition "abcdefghij".toList 4 1 (by decide)).2.2.2

/-- Witness for C9 at `text = "abcdefghij"`, `maxSize = 4`, `overlap = 1`,
`fuel = 99`. -/
theorem chunker_terminates_witness :
    recursiveChunkWithOverlapFuel "abcdefghij".toList 4 1 99 =
      recursiveChunkWithOverlap "abcdefghij".toList 4 1 :=
  (chunker_terminates "abcdefghij".toList 4 1 (by decide)).1 99 (by decide)

end Anjin
